import Mathlib

/-!
Verification of the log-parsing and extraction pipeline of
`src/dashboard.py` (trading-analysis dashboard).

Strings are modelled as `List Char` (ASCII; Python's `\d` is modelled as the
ASCII digits `'0'..'9'`).  Each Lean definition below is a direct translation
of a Python function or of the CPython semantics of a library call the
source relies on (`str.split`, `str.join`, `in`, `re.findall`,
`datetime.strptime`).  Regex alternation and greedy repetition are modelled
by candidate lists in preference order plus a backtracking first-success
search (`firstSome`), which is exactly the Python `re` matching order.
-/

/-- Character list of a string literal. -/
def cls (s : String) : List Char := s.data

/-- Numeric value of an ASCII digit character (`int` of one digit). -/
def dv (c : Char) : Nat := c.toNat - 48

/-- Value of a digit string, as Python `int` computes it on a digit run. -/
def natOfDigits (ds : List Char) : Nat := ds.foldl (fun a c => 10 * a + dv c) 0

/-- One segment-prepend step used by the splitting functions: prepend a
character to the first segment of a segment list. -/
def consHead (c : Char) : List (List Char) → List (List Char)
  | h :: t => (c :: h) :: t
  | [] => [[c]]

/-- Python `line.split(": ")`: split on every non-overlapping occurrence of
the two-character separator `": "`, left to right.  `"".split(": ") = [""]`. -/
def splitCS : List Char → List (List Char)
  | [] => [[]]
  | ':' :: ' ' :: rest => [] :: splitCS rest
  | c :: rest => consHead c (splitCS rest)

/-- Python `": ".join(segs)`. -/
def joinCS : List (List Char) → List Char
  | [] => []
  | [x] => x
  | x :: y :: t => x ++ ':' :: ' ' :: joinCS (y :: t)

/-- Python `log_text.split('\n')`. -/
def splitNL : List Char → List (List Char)
  | [] => [[]]
  | '\n' :: rest => [] :: splitNL rest
  | c :: rest => consHead c (splitNL rest)

/-- Whether a character list contains an occurrence of `": "` (so
`splitCS` splits it).  Used only to state facts about lines. -/
def hasCS : List Char → Bool
  | ':' :: ' ' :: _ => true
  | _ :: rest => hasCS rest
  | [] => false

/-- Python substring containment `pat in s`. -/
def containsSub (pat s : List Char) : Bool :=
  match s with
  | [] => pat.isEmpty
  | c :: rest => pat.isPrefixOf (c :: rest) || containsSub pat rest

/-- Backtracking search: try the candidates in order, return the first
continuation success.  This is how a regex engine explores an ordered list
of alternatives for one sub-pattern: a later candidate is tried exactly when
the match of the rest of the pattern fails on every earlier one. -/
def firstSome {α β : Type} (k : α → Option β) : List α → Option β
  | [] => none
  | a :: rest =>
    match k a with
    | some b => some b
    | none => firstSome k rest

/-- Match one literal character (an escaped literal in the strptime regex). -/
def litCh (c : Char) (s : List Char) : Option (List Char) :=
  match s with
  | a :: rest => if a = c then some rest else none
  | [] => none

/-- Match exactly `n` ASCII digits and return their value and the rest. -/
def takeDigits : Nat → List Char → Option (Nat × List Char)
  | 0, s => some (0, s)
  | _ + 1, [] => none
  | n + 1, c :: rest =>
    if c.isDigit then (takeDigits n rest).map (fun p => (dv c * 10 ^ n + p.1, p.2)) else none

/-- Char equals the digit of value `k` (regex literal digit, e.g. `1`). -/
def digAt (c : Char) (k : Nat) : Bool := c.isDigit && decide (dv c = k)

/-- Char in the class `['0'..digit k]` (e.g. `[0-2]` is `digLe c 2`). -/
def digLe (c : Char) (k : Nat) : Bool := c.isDigit && dv c ≤ k

/-- Char in the class `[digit lo..digit hi]` (e.g. `[1-9]`). -/
def digBetween (c : Char) (lo hi : Nat) : Bool := c.isDigit && lo ≤ dv c && dv c ≤ hi

/-- One two-digit regex alternative such as `1[0-2]`: first char satisfies
`p1`, second `p2`; value is the two-digit number. -/
def twoDigAlt (p1 p2 : Char → Bool) : List Char → List (Nat × List Char)
  | a :: b :: r => if p1 a && p2 b then [(10 * dv a + dv b, r)] else []
  | _ => []

/-- One one-digit regex alternative such as `[1-9]`. -/
def oneDigAlt (p : Char → Bool) : List Char → List (Nat × List Char)
  | a :: r => if p a then [(dv a, r)] else []
  | [] => []

/-- CPython strptime `%Y`: regex `\d\d\d\d` (exactly four digits). -/
def yearAlts (s : List Char) : List (Nat × List Char) :=
  match takeDigits 4 s with
  | some p => [p]
  | none => []

/-- CPython strptime `%m`: regex `1[0-2]|0[1-9]|[1-9]`, preference order. -/
def monthAlts (s : List Char) : List (Nat × List Char) :=
  twoDigAlt (digAt · 1) (digLe · 2) s ++ twoDigAlt (digAt · 0) (digBetween · 1 9) s
    ++ oneDigAlt (digBetween · 1 9) s

/-- CPython strptime `%d`: regex `3[01]|[12]\d|0[1-9]|[1-9]`. -/
def dayAlts (s : List Char) : List (Nat × List Char) :=
  twoDigAlt (digAt · 3) (digLe · 1) s ++ twoDigAlt (digBetween · 1 2) (·.isDigit) s
    ++ twoDigAlt (digAt · 0) (digBetween · 1 9) s ++ oneDigAlt (digBetween · 1 9) s

/-- CPython strptime `%H`: regex `2[0-3]|[0-1]\d|\d`. -/
def hourAlts (s : List Char) : List (Nat × List Char) :=
  twoDigAlt (digAt · 2) (digLe · 3) s ++ twoDigAlt (digLe · 1) (·.isDigit) s
    ++ oneDigAlt (·.isDigit) s

/-- CPython strptime `%M`: regex `[0-5]\d|\d`. -/
def minAlts (s : List Char) : List (Nat × List Char) :=
  twoDigAlt (digLe · 5) (·.isDigit) s ++ oneDigAlt (·.isDigit) s

/-- CPython strptime `%S`: regex `6[0-1]|[0-5]\d|\d`. -/
def secAlts (s : List Char) : List (Nat × List Char) :=
  twoDigAlt (digAt · 6) (digLe · 1) s ++ twoDigAlt (digLe · 5) (·.isDigit) s
    ++ oneDigAlt (·.isDigit) s

/-- ASCII whitespace, the characters matched by `\s` in the strptime regex. -/
def isSpaceCh (c : Char) : Bool :=
  c = ' ' || c = '\t' || c = '\n' || c = '\x0b' || c = '\x0c' || c = '\r'

/-- Candidates of `\s+` (CPython strptime replaces a literal space in the
format with `\s+`): remainders after consuming a non-empty whitespace run,
longest consumption first (greedy preference order). -/
def wsAlts : List Char → List (List Char)
  | c :: rest =>
    if isSpaceCh c then
      match wsAlts rest with
      | [] => [rest]
      | l => l ++ [rest]
    else []
  | [] => []

/-- CPython strptime `%f`: regex `[0-9]{1,6}`, greedy; the value is the
digit run right-padded with zeros to six digits (microseconds). -/
def fracAlts (s : List Char) : List (Nat × List Char) :=
  [6, 5, 4, 3, 2, 1].filterMap
    (fun k => (takeDigits k s).map (fun p => (p.1 * 10 ^ (6 - k), p.2)))

/-- Gregorian leap year, as Python's `calendar`/`datetime` define it. -/
def isLeapYear (y : Nat) : Bool := y % 4 == 0 && (y % 100 != 0 || y % 400 == 0)

/-- Days in a month, as `datetime` validates the day field. -/
def daysInMonth (y mo : Nat) : Nat :=
  if mo = 2 then (if isLeapYear y then 29 else 28)
  else if mo = 4 || mo = 6 || mo = 9 || mo = 11 then 30
  else 31

/-- A parsed `datetime` value (microsecond precision, like Python). -/
structure Timestamp where
  year : Nat
  month : Nat
  day : Nat
  hour : Nat
  minute : Nat
  second : Nat
  microsecond : Nat
  deriving DecidableEq, Repr

/-- The `datetime(...)` constructor's range validation (raises `ValueError`,
i.e. `none`, outside these ranges). -/
def mkDatetime (y mo d h mi s f : Nat) : Option Timestamp :=
  if 1 ≤ y ∧ y ≤ 9999 ∧ 1 ≤ mo ∧ mo ≤ 12 ∧ 1 ≤ d ∧ d ≤ daysInMonth y mo
      ∧ h ≤ 23 ∧ mi ≤ 59 ∧ s ≤ 59 ∧ f ≤ 999999
  then some ⟨y, mo, d, h, mi, s, f⟩ else none

/-- The regex match of CPython `_strptime` for the format
`"%Y-%m-%d %H:%M:%S,%f"`: anchored at the start, fields in preference
order with backtracking, literals `-`, `:`, `,` matched exactly and the
space matched as `\s+`.  Returns the seven field values and the unconsumed
remainder of the first (preference-order) successful match. -/
def strptimeMatch (s0 : List Char) :
    Option (Nat × Nat × Nat × Nat × Nat × Nat × Nat × List Char) :=
  firstSome (fun py =>
    match litCh '-' py.2 with
    | none => none
    | some s2 =>
      firstSome (fun pmo =>
        match litCh '-' pmo.2 with
        | none => none
        | some s4 =>
          firstSome (fun pd =>
            firstSome (fun s6 =>
              firstSome (fun ph =>
                match litCh ':' ph.2 with
                | none => none
                | some s8 =>
                  firstSome (fun pmi =>
                    match litCh ':' pmi.2 with
                    | none => none
                    | some s10 =>
                      firstSome (fun psec =>
                        match litCh ',' psec.2 with
                        | none => none
                        | some s12 =>
                          firstSome (fun pf =>
                            some (py.1, pmo.1, pd.1, ph.1, pmi.1, psec.1, pf.1, pf.2))
                            (fracAlts s12))
                        (secAlts s10))
                    (minAlts s8))
                (hourAlts s6))
              (wsAlts pd.2))
            (dayAlts s4))
        (monthAlts s2))
    (yearAlts s0)

/-- `datetime.strptime(s, "%Y-%m-%d %H:%M:%S,%f")`: regex match, then the
"unconverted data remains" check (the whole string must be consumed), then
the `datetime` constructor's validation. -/
def strptime (s : List Char) : Option Timestamp :=
  match strptimeMatch s with
  | some (y, mo, d, h, mi, sec, f, rest) =>
    if rest.isEmpty then mkDatetime y mo d h mi sec f else none
  | none => none

/-- Translation of `parse_log_line`: split on `": "`, the part before the
first occurrence is the timestamp candidate, the re-joined remainder is the
message; the bare `except` returning `(None, None)` corresponds to the
`none` cases (only `strptime` can raise here). -/
def parse_log_line (line : List Char) : Option (Timestamp × List Char) :=
  match splitCS line with
  | [] => none
  | tsStr :: parts =>
    match strptime tsStr with
    | some t => some (t, joinCS parts)
    | none => none

/-- The literal `"OI:"` of the regex `OI:(\d+)`. -/
def oiLit : List Char := cls "OI:"

/-- The literal marker `"ATM CE OI:"`. -/
def oiMarker : List Char := cls "ATM CE OI:"

/-- The scan of `re.findall(r"OI:(\d+)", message)`: at each position, left
to right, try to match `OI:` followed by a greedy non-empty digit run; on a
match, collect the run's value and resume after it (non-overlapping); on a
failure, advance one position.  `fuel` bounds the scan; it is always called
with `fuel = s.length`, which suffices since every step consumes at least
one character. -/
def findOIGo : Nat → List Char → List Nat
  | 0, _ => []
  | _ + 1, [] => []
  | fuel + 1, c :: rest =>
    if oiLit.isPrefixOf (c :: rest) ∧ (((c :: rest).drop 3).takeWhile Char.isDigit) ≠ [] then
      natOfDigits (((c :: rest).drop 3).takeWhile Char.isDigit)
        :: findOIGo fuel (((c :: rest).drop 3).dropWhile Char.isDigit)
    else findOIGo fuel rest

/-- `re.findall(r"OI:(\d+)", s)` as the list of captured values. -/
def findOI (s : List Char) : List Nat := findOIGo s.length s

/-- Translation of `extract_oi_data`: marker check, then the first two
`findall` captures as `(ce_oi, pe_oi)`; `(None, None)` otherwise. -/
def extract_oi_data (message : List Char) : Option (Nat × Nat) :=
  if containsSub oiMarker message then
    match findOI message with
    | a :: b :: _ => some (a, b)
    | _ => none
  else none

/-- The literal marker `"ATM strikes:"`. -/
def strikesMarker : List Char := cls "ATM strikes:"

/-- The literal `BANKNIFTY` of the strike regex. -/
def bankLit : List Char := cls "BANKNIFTY"

/-- Candidates of a greedy `\d+`: remainders after consuming a non-empty
digit run, longest consumption first. -/
def digAlts : List Char → List (List Char)
  | c :: rest => if c.isDigit then digAlts rest ++ [rest] else []
  | [] => []

/-- Candidates of the greedy capture `(\d+)`: pairs of captured digits and
remainder, longest capture first. -/
def capAlts : List Char → List (List Char × List Char)
  | c :: rest =>
    if c.isDigit then (capAlts rest).map (fun p => (c :: p.1, p.2)) ++ [([c], rest)]
    else []
  | [] => []

/-- Whether the list starts with `CE` or `PE` (the regex `(CE|PE)`; only
its success matters since the code reads capture group 1 of the match). -/
def cePeHead (t : List Char) : Bool :=
  match t with
  | a :: b :: _ => decide ((a = 'C' ∨ a = 'P') ∧ b = 'E')
  | _ => false

/-- The tail `(\d+)(CE|PE)` of the strike regex at a position: try the
capture candidates greedily, succeed when `CE`/`PE` follows, returning the
captured digits. -/
def capTry (t : List Char) : Option (List Char) :=
  firstSome (fun p => if cePeHead p.2 then some p.1 else none) (capAlts t)

/-- The tail `\d+(\d+)(CE|PE)` of the strike regex at a position. -/
def runTry (t : List Char) : Option (List Char) :=
  firstSome (fun t3 => capTry t3) (digAlts t)

/-- One anchored attempt of the regex `BANKNIFTY\d+[NF]\d+(\d+)(CE|PE)` at
the start of `s`, returning capture group 1 of the first
(preference-order) match. -/
def strikeAt (s : List Char) : Option (List Char) :=
  if bankLit.isPrefixOf s then
    firstSome (fun t1 =>
      match t1 with
      | [] => none
      | c :: t2 => if c = 'N' ∨ c = 'F' then runTry t2 else none)
      (digAlts (s.drop 9))
  else none

/-- The scan of `re.findall(r"BANKNIFTY\d+[NF]\d+(\d+)(CE|PE)", message)`
restricted to what the code consumes: capture group 1 of the leftmost
match (`strikes[0][0]`), `none` when there is no match. -/
def findStrike : List Char → Option (List Char)
  | [] => none
  | c :: rest =>
    match strikeAt (c :: rest) with
    | some g => some g
    | none => findStrike rest

/-- Translation of `extract_strike_data`: marker check, then group 1 of the
first match of the instrument-code regex, kept as a string. -/
def extract_strike_data (message : List Char) : Option (List Char) :=
  if containsSub strikesMarker message then findStrike message else none

/-- One row of the produced DataFrame.  A row is either OI-shaped (columns
`timestamp, ce_oi, pe_oi, oi_difference`) or strike-shaped (columns
`timestamp, strike`); the two dict shapes appended by `process_log_data`. -/
inductive Row where
  | oi (timestamp : Timestamp) (ce_oi pe_oi : Nat) (oi_difference : Int)
  | strike (timestamp : Timestamp) (strike : List Char)
  deriving DecidableEq, Repr

/-- The loop body of `process_log_data` for one line: parse, run both
extractors, append the OI row and then the strike row when each is present.
`if timestamp:` is always true for a parsed datetime; `if strike:` is
Python truthiness of a string, false for `None` and for the empty string. -/
def processLine (line : List Char) : List Row :=
  match parse_log_line line with
  | none => []
  | some (ts, msg) =>
    (match extract_oi_data msg with
     | some cp => [Row.oi ts cp.1 cp.2 ((cp.1 : Int) - (cp.2 : Int))]
     | none => []) ++
    (match extract_strike_data msg with
     | some g => if g.isEmpty then [] else [Row.strike ts g]
     | none => [])

/-- Accumulation over the line list, in input order. -/
def processAll : List (List Char) → List Row
  | [] => []
  | l :: ls => processLine l ++ processAll ls

/-- Translation of `process_log_data`: split the text on newlines and run
the loop body over every line, accumulating rows in input line order. -/
def process_log_data (log_text : List Char) : List Row :=
  processAll (splitNL log_text)

/-- The spec reading of the OI extraction scan (spec section 4.2): walk
every position of the message left to right; at each position where the
literal `OI:` occurs immediately followed by one or more decimal digits,
collect the value of that digit run, in order of appearance.  Unlike
`findOIGo` this does not skip over a matched run; the two agree because a
digit run can never contain the start of another `OI:` occurrence. -/
def oiOccSpec : List Char → List Nat
  | [] => []
  | c :: rest =>
    (if oiLit.isPrefixOf (c :: rest) ∧ (((c :: rest).drop 3).takeWhile Char.isDigit) ≠ []
     then [natOfDigits (((c :: rest).drop 3).takeWhile Char.isDigit)] else [])
      ++ oiOccSpec rest

/-- The ASCII digit character of a digit value (values above nine clamp to
the digit nine; all uses are with values at most nine). -/
def dchar : Nat → Char
  | 0 => '0'
  | 1 => '1'
  | 2 => '2'
  | 3 => '3'
  | 4 => '4'
  | 5 => '5'
  | 6 => '6'
  | 7 => '7'
  | 8 => '8'
  | _ => '9'

/-- Two-digit zero-padded rendering of a number below one hundred. -/
def pad2 (n : Nat) : List Char := [dchar (n / 10), dchar (n % 10)]

/-- Three-digit zero-padded rendering of a number below one thousand. -/
def pad3 (n : Nat) : List Char := [dchar (n / 100), dchar (n / 10 % 10), dchar (n % 10)]

/-- Four-digit zero-padded rendering of a number below ten thousand. -/
def pad4 (n : Nat) : List Char := [dchar (n / 1000), dchar (n / 100 % 10), dchar (n / 10 % 10), dchar (n % 10)]

/-- The rendered form `YYYY-MM-DD HH:MM:SS,mmm` of a timestamp, the
well-formed line prefix shape of the spec. -/
def tsRender (y mo d h mi s ms : Nat) : List Char :=
  pad4 y ++ '-' :: (pad2 mo ++ '-' :: (pad2 d ++ ' ' :: (pad2 h ++ ':' :: (pad2 mi ++ ':' :: (pad2 s ++ ',' :: pad3 ms)))))

theorem dchar_isDigit (k : Nat) : (dchar k).isDigit = true := by
  unfold dchar; split <;> decide

theorem dchar_ne_colon (k : Nat) : dchar k ≠ ':' := by
  unfold dchar; split <;> decide

theorem dchar_ne_space (k : Nat) : dchar k ≠ ' ' := by
  unfold dchar; split <;> decide

theorem dchar_ne_newline (k : Nat) : dchar k ≠ '\n' := by
  unfold dchar; split <;> decide

theorem isSpaceCh_dchar (k : Nat) : isSpaceCh (dchar k) = false := by
  unfold dchar; split <;> decide

theorem dv_dchar {k : Nat} (h : k ≤ 9) : dv (dchar k) = k := by
  interval_cases k <;> decide

theorem digBetween_dchar {k lo hi : Nat} (h9 : k ≤ 9) (hlo : lo ≤ k) (hhi : k ≤ hi) :
    digBetween (dchar k) lo hi = true := by
  simp [digBetween, dchar_isDigit, dv_dchar h9, hlo, hhi]

theorem digLe_dchar {k j : Nat} (h9 : k ≤ 9) (h : k ≤ j) : digLe (dchar k) j = true := by
  simp [digLe, dchar_isDigit, dv_dchar h9, h]

theorem digAt_dchar_self {k : Nat} (h9 : k ≤ 9) : digAt (dchar k) k = true := by
  simp [digAt, dchar_isDigit, dv_dchar h9]

theorem firstSome_cons_some {α β : Type} (k : α → Option β) (a : α) (l : List α) (b : β)
    (h : k a = some b) : firstSome k (a :: l) = some b := by
  simp [firstSome, h]

theorem firstSome_cons_none {α β : Type} (k : α → Option β) (a : α) (l : List α)
    (h : k a = none) : firstSome k (a :: l) = firstSome k l := by
  simp [firstSome, h]

theorem firstSome_of_head {α β : Type} (k : α → Option β) (l : List α) (a : α) (b : β)
    (h1 : l.head? = some a) (h2 : k a = some b) : firstSome k l = some b := by
  cases l with
  | nil => simp at h1
  | cons x xs =>
      simp only [List.head?_cons, Option.some.injEq] at h1
      subst h1
      exact firstSome_cons_some k x xs b h2

theorem firstSome_append {α β : Type} (k : α → Option β) (l1 l2 : List α) :
    firstSome k (l1 ++ l2) =
      match firstSome k l1 with
      | some b => some b
      | none => firstSome k l2 := by
  induction l1 with
  | nil => simp [firstSome]
  | cons a t ih =>
      simp only [List.cons_append, firstSome]
      cases k a <;> simp [ih]

theorem firstSome_map {α γ β : Type} (k : γ → Option β) (f : α → γ) (l : List α) :
    firstSome k (l.map f) = firstSome (fun a => k (f a)) l := by
  induction l with
  | nil => rfl
  | cons a t ih =>
      simp only [List.map_cons, firstSome]
      cases k (f a) <;> simp [ih]

theorem firstSome_eq_some {α β : Type} {k : α → Option β} {l : List α} {b : β}
    (h : firstSome k l = some b) : ∃ a ∈ l, k a = some b := by
  induction l with
  | nil => simp [firstSome] at h
  | cons a t ih =>
      rw [firstSome] at h
      cases hka : k a with
      | some b2 =>
          rw [hka] at h
          exact ⟨a, List.mem_cons_self a t, hka.trans h⟩
      | none =>
          rw [hka] at h
          obtain ⟨x, hx, hkx⟩ := ih h
          exact ⟨x, List.mem_cons_of_mem a hx, hkx⟩

theorem consHead_cons (c : Char) (h : List Char) (t : List (List Char)) :
    consHead c (h :: t) = (c :: h) :: t := rfl

theorem splitCS_cons_ne_colon {a : Char} (rest : List Char) (h : a ≠ ':') :
    splitCS (a :: rest) = consHead a (splitCS rest) :=
  splitCS.eq_3 a rest (fun _ hc _ => h hc)

theorem splitCS_colon_ne_space {b : Char} (rest : List Char) (h : b ≠ ' ') :
    splitCS (':' :: b :: rest) = consHead ':' (splitCS (b :: rest)) :=
  splitCS.eq_3 ':' (b :: rest) (fun _ _ hr => h (List.cons.inj hr).1)

theorem splitCS_ne_nil (s : List Char) : splitCS s ≠ [] := by
  induction s using splitCS.induct with
  | case1 => simp [splitCS]
  | case2 rest ih => simp [splitCS]
  | case3 c rest h ih =>
      rw [splitCS.eq_3 c rest h]
      cases hs : splitCS rest with
      | nil => simp [consHead]
      | cons x xs => simp [consHead]

theorem joinCS_splitCS (s : List Char) : joinCS (splitCS s) = s := by
  induction s using splitCS.induct with
  | case1 => rfl
  | case2 rest ih =>
      rw [splitCS]
      cases hs : splitCS rest with
      | nil => exact absurd hs (splitCS_ne_nil rest)
      | cons x xs =>
          rw [hs] at ih
          rw [joinCS]
          simp [ih]
  | case3 c rest h ih =>
      rw [splitCS.eq_3 c rest h]
      cases hs : splitCS rest with
      | nil => exact absurd hs (splitCS_ne_nil rest)
      | cons x xs =>
          rw [hs] at ih
          rw [consHead_cons]
          cases xs with
          | nil =>
              rw [joinCS] at ih ⊢
              rw [ih]
          | cons y ys =>
              rw [joinCS] at ih ⊢
              rw [List.cons_append, ih]

theorem splitNL_cons_ne {c : Char} (rest : List Char) (h : c ≠ '\n') :
    splitNL (c :: rest) = consHead c (splitNL rest) :=
  splitNL.eq_3 c rest (fun hc => h hc)

theorem splitNL_ne_nil (s : List Char) : splitNL s ≠ [] := by
  induction s using splitNL.induct with
  | case1 => simp [splitNL]
  | case2 rest ih => simp [splitNL]
  | case3 c rest h ih =>
      rw [splitNL.eq_3 c rest h]
      cases hs : splitNL rest with
      | nil => simp [consHead]
      | cons x xs => simp [consHead]

theorem consHead_append (c : Char) (l1 l2 : List (List Char)) (h : l1 ≠ []) :
    consHead c (l1 ++ l2) = consHead c l1 ++ l2 := by
  cases l1 with
  | nil => exact absurd rfl h
  | cons x xs => simp [consHead]

/-- Splitting on newlines distributes over concatenation at a newline:
the lines of `x ++ "\n" ++ y` are the lines of `x` followed by those of
`y`. -/
theorem splitNL_append (x y : List Char) :
    splitNL (x ++ '\n' :: y) = splitNL x ++ splitNL y := by
  induction x using splitNL.induct with
  | case1 => simp [splitNL]
  | case2 rest ih =>
      simp only [List.cons_append, splitNL.eq_2, ih]
  | case3 c rest h ih =>
      have hc : c ≠ '\n' := fun hc => h hc
      rw [List.cons_append, splitNL_cons_ne _ hc, splitNL_cons_ne _ hc, ih,
        consHead_append c _ _ (splitNL_ne_nil rest)]

theorem litCh_self (c : Char) (r : List Char) : litCh c (c :: r) = some r := by
  simp [litCh]

theorem takeDigits_short {n : Nat} {s : List Char} (h : s.length < n) : takeDigits n s = none := by
  induction n generalizing s with
  | zero => omega
  | succ n ih =>
      cases s with
      | nil => rfl
      | cons c rest =>
          have hr : rest.length < n := by simp at h; omega
          simp [takeDigits, ih hr]

theorem takeDigits4_pad4 {y : Nat} (h : y ≤ 9999) (r : List Char) :
    takeDigits 4 (pad4 y ++ r) = some (y, r) := by
  have h3 : y / 1000 ≤ 9 := by omega
  have h2 : y / 100 % 10 ≤ 9 := by omega
  have h1 : y / 10 % 10 ≤ 9 := by omega
  have h0 : y % 10 ≤ 9 := by omega
  simp [pad4, takeDigits, dchar_isDigit, dv_dchar h3, dv_dchar h2, dv_dchar h1, dv_dchar h0]
  omega

theorem yearAlts_pad4 {y : Nat} (h : y ≤ 9999) (r : List Char) :
    yearAlts (pad4 y ++ r) = [(y, r)] := by
  simp [yearAlts, takeDigits4_pad4 h]

theorem monthAlts_head {mo : Nat} (h1 : 1 ≤ mo) (h2 : mo ≤ 12) (r : List Char) :
    (monthAlts (pad2 mo ++ r)).head? = some (mo, r) := by
  by_cases hc : mo ≤ 9
  · have e1 : mo / 10 = 0 := by omega
    have e2 : mo % 10 = mo := by omega
    simp [monthAlts, twoDigAlt, oneDigAlt, pad2, e1, e2, digAt, digLe, digBetween,
      dchar_isDigit, show dv (dchar 0) = 0 from by decide, dv_dchar hc, h1, hc]
  · have e1 : mo / 10 = 1 := by omega
    have hu2 : mo % 10 ≤ 2 := by omega
    have hu9 : mo % 10 ≤ 9 := by omega
    simp [monthAlts, twoDigAlt, oneDigAlt, pad2, e1, digAt, digLe, digBetween,
      dchar_isDigit, show dv (dchar 1) = 1 from by decide, dv_dchar hu9, hu2]
    omega

theorem dayAlts_head {d : Nat} (h1 : 1 ≤ d) (h2 : d ≤ 31) (r : List Char) :
    (dayAlts (pad2 d ++ r)).head? = some (d, r) := by
  rcases Nat.lt_or_ge d 10 with hc | hc
  · have e1 : d / 10 = 0 := by omega
    have e2 : d % 10 = d := by omega
    have hd9 : d ≤ 9 := by omega
    simp [dayAlts, twoDigAlt, oneDigAlt, pad2, e1, e2, digAt, digLe, digBetween,
      dchar_isDigit, show dv (dchar 0) = 0 from by decide, dv_dchar hd9, h1, hd9]
  · rcases Nat.lt_or_ge d 30 with hc2 | hc2
    · have ht9 : d / 10 ≤ 9 := by omega
      have ht1 : 1 ≤ d / 10 := by omega
      have ht2 : d / 10 ≤ 2 := by omega
      have hne : d / 10 ≠ 3 := by omega
      have hu9 : d % 10 ≤ 9 := by omega
      simp [dayAlts, twoDigAlt, oneDigAlt, pad2, digAt, digLe, digBetween,
        dchar_isDigit, dv_dchar ht9, dv_dchar hu9, hne, ht1, ht2]
      omega
    · have e1 : d / 10 = 3 := by omega
      have hu1 : d % 10 ≤ 1 := by omega
      have hu9 : d % 10 ≤ 9 := by omega
      simp [dayAlts, twoDigAlt, oneDigAlt, pad2, e1, digAt, digLe, digBetween,
        dchar_isDigit, show dv (dchar 3) = 3 from by decide, dv_dchar hu9, hu1]
      omega

theorem hourAlts_head {h : Nat} (hb : h ≤ 23) (r : List Char) :
    (hourAlts (pad2 h ++ r)).head? = some (h, r) := by
  have hu9 : h % 10 ≤ 9 := by omega
  rcases Nat.lt_or_ge h 20 with hc | hc
  · have ht9 : h / 10 ≤ 9 := by omega
    have ht1 : h / 10 ≤ 1 := by omega
    have hne : h / 10 ≠ 2 := by omega
    simp [hourAlts, twoDigAlt, oneDigAlt, pad2, digAt, digLe,
      dchar_isDigit, dv_dchar ht9, dv_dchar hu9, hne, ht1]
    omega
  · have e1 : h / 10 = 2 := by omega
    have hu3 : h % 10 ≤ 3 := by omega
    simp [hourAlts, twoDigAlt, oneDigAlt, pad2, e1, digAt, digLe,
      dchar_isDigit, show dv (dchar 2) = 2 from by decide, dv_dchar hu9, hu3]
    omega

theorem minAlts_head {mi : Nat} (hb : mi ≤ 59) (r : List Char) :
    (minAlts (pad2 mi ++ r)).head? = some (mi, r) := by
  have ht9 : mi / 10 ≤ 9 := by omega
  have ht5 : mi / 10 ≤ 5 := by omega
  have hu9 : mi % 10 ≤ 9 := by omega
  simp [minAlts, twoDigAlt, oneDigAlt, pad2, digAt, digLe,
    dchar_isDigit, dv_dchar ht9, dv_dchar hu9, ht5]
  omega

theorem secAlts_head {s : Nat} (hb : s ≤ 59) (r : List Char) :
    (secAlts (pad2 s ++ r)).head? = some (s, r) := by
  have ht9 : s / 10 ≤ 9 := by omega
  have ht5 : s / 10 ≤ 5 := by omega
  have hne : s / 10 ≠ 6 := by omega
  have hu9 : s % 10 ≤ 9 := by omega
  simp [secAlts, twoDigAlt, oneDigAlt, pad2, digAt, digLe,
    dchar_isDigit, dv_dchar ht9, dv_dchar hu9, hne, ht5]
  omega

theorem wsAlts_space_pad2 (n : Nat) (r : List Char) :
    wsAlts (' ' :: (pad2 n ++ r)) = [pad2 n ++ r] := by
  have h1 : wsAlts (pad2 n ++ r) = [] := by
    simp [pad2, wsAlts, isSpaceCh_dchar]
  rw [wsAlts]
  simp [show isSpaceCh ' ' = true from by decide, h1]

theorem fracAlts_pad3 {ms : Nat} (h : ms ≤ 999) :
    (fracAlts (pad3 ms)).head? = some (ms * 1000, []) := by
  have l3 : (pad3 ms).length = 3 := by simp [pad3]
  have h6 : takeDigits 6 (pad3 ms) = none := takeDigits_short (by omega)
  have h5 : takeDigits 5 (pad3 ms) = none := takeDigits_short (by omega)
  have h4 : takeDigits 4 (pad3 ms) = none := takeDigits_short (by omega)
  have a2 : ms / 100 ≤ 9 := by omega
  have a1 : ms / 10 % 10 ≤ 9 := by omega
  have a0 : ms % 10 ≤ 9 := by omega
  have h3 : takeDigits 3 (pad3 ms) = some (ms, []) := by
    simp [pad3, takeDigits, dchar_isDigit, dv_dchar a2, dv_dchar a1, dv_dchar a0]
    omega
  simp [fracAlts, h6, h5, h4, h3]

theorem hasCS_cons_ne_colon {a : Char} (rest : List Char) (h : a ≠ ':') :
    hasCS (a :: rest) = hasCS rest :=
  hasCS.eq_2 a rest (fun _ hc _ => h hc)

theorem hasCS_colon_ne_space {b : Char} (rest : List Char) (h : b ≠ ' ') :
    hasCS (':' :: b :: rest) = hasCS (b :: rest) :=
  hasCS.eq_2 ':' (b :: rest) (fun _ _ hr => h (List.cons.inj hr).1)

theorem hasCS_single (a : Char) : hasCS [a] = false := by
  rw [hasCS.eq_2 a [] (fun _ _ hr => by cases hr)]
  rfl

/-- A prefix without any `": "` occurrence passes through `splitCS`
unsplit: the split of `pre ++ ": " ++ msg` is `pre` followed by the split
of `msg`. -/
theorem splitCS_append_noCS (pre msg : List Char) (h : hasCS pre = false) :
    splitCS (pre ++ ':' :: ' ' :: msg) = pre :: splitCS msg := by
  induction pre using hasCS.induct with
  | case1 rest => rw [hasCS] at h; cases h
  | case2 c rest hside ih =>
      by_cases hc : c = ':'
      · subst hc
        cases rest with
        | nil =>
            rw [List.cons_append, List.nil_append,
              splitCS_colon_ne_space _ (by decide : (':' : Char) ≠ ' ')]
            rw [splitCS.eq_2]
            rfl
        | cons b rest' =>
            have hb : b ≠ ' ' := by
              intro hb
              exact hside rest' rfl (by rw [hb])
            rw [hasCS_colon_ne_space _ hb] at h
            rw [List.cons_append, List.cons_append, splitCS_colon_ne_space _ hb]
            rw [List.cons_append] at ih
            rw [ih h, consHead_cons]
      · rw [hasCS_cons_ne_colon _ hc] at h
        rw [List.cons_append, splitCS_cons_ne_colon _ hc, ih h, consHead_cons]
  | case3 => rw [List.nil_append, splitCS.eq_2]

theorem hasCS_tsRender (y mo d h mi s ms : Nat) :
    hasCS (tsRender y mo d h mi s ms) = false := by
  simp only [tsRender, pad4, pad2, pad3, List.cons_append, List.nil_append]
  rw [hasCS_cons_ne_colon _ (dchar_ne_colon _), hasCS_cons_ne_colon _ (dchar_ne_colon _),
    hasCS_cons_ne_colon _ (dchar_ne_colon _), hasCS_cons_ne_colon _ (dchar_ne_colon _),
    hasCS_cons_ne_colon _ (by decide : ('-' : Char) ≠ ':'),
    hasCS_cons_ne_colon _ (dchar_ne_colon _), hasCS_cons_ne_colon _ (dchar_ne_colon _),
    hasCS_cons_ne_colon _ (by decide : ('-' : Char) ≠ ':'),
    hasCS_cons_ne_colon _ (dchar_ne_colon _), hasCS_cons_ne_colon _ (dchar_ne_colon _),
    hasCS_cons_ne_colon _ (by decide : (' ' : Char) ≠ ':'),
    hasCS_cons_ne_colon _ (dchar_ne_colon _), hasCS_cons_ne_colon _ (dchar_ne_colon _),
    hasCS_colon_ne_space _ (dchar_ne_space _),
    hasCS_cons_ne_colon _ (dchar_ne_colon _), hasCS_cons_ne_colon _ (dchar_ne_colon _),
    hasCS_colon_ne_space _ (dchar_ne_space _),
    hasCS_cons_ne_colon _ (dchar_ne_colon _), hasCS_cons_ne_colon _ (dchar_ne_colon _),
    hasCS_cons_ne_colon _ (by decide : (',' : Char) ≠ ':'),
    hasCS_cons_ne_colon _ (dchar_ne_colon _), hasCS_cons_ne_colon _ (dchar_ne_colon _),
    hasCS_single]

theorem strptimeMatch_render {y mo d h mi s ms : Nat}
    (hy2 : y ≤ 9999) (hmo1 : 1 ≤ mo) (hmo2 : mo ≤ 12)
    (hd1 : 1 ≤ d) (hd2 : d ≤ 31) (hh : h ≤ 23) (hmi : mi ≤ 59)
    (hs : s ≤ 59) (hms : ms ≤ 999) :
    strptimeMatch (tsRender y mo d h mi s ms)
      = some (y, mo, d, h, mi, s, ms * 1000, []) := by
  rw [tsRender, strptimeMatch, yearAlts_pad4 hy2]
  refine firstSome_cons_some _ _ _ _ ?_
  simp only [litCh_self]
  refine firstSome_of_head _ _ _ _ (monthAlts_head hmo1 hmo2 _) ?_
  simp only [litCh_self]
  refine firstSome_of_head _ _ _ _ (dayAlts_head hd1 hd2 _) ?_
  simp only [wsAlts_space_pad2]
  refine firstSome_cons_some _ _ _ _ ?_
  refine firstSome_of_head _ _ _ _ (hourAlts_head hh _) ?_
  simp only [litCh_self]
  refine firstSome_of_head _ _ _ _ (minAlts_head hmi _) ?_
  simp only [litCh_self]
  refine firstSome_of_head _ _ _ _ (secAlts_head hs _) ?_
  simp only [litCh_self]
  exact firstSome_of_head _ _ _ _ (fracAlts_pad3 hms) rfl

theorem daysInMonth_le_31 (y mo : Nat) : daysInMonth y mo ≤ 31 := by
  unfold daysInMonth
  split <;> split <;> omega

theorem strptime_render {y mo d h mi s ms : Nat}
    (hy1 : 1 ≤ y) (hy2 : y ≤ 9999) (hmo1 : 1 ≤ mo) (hmo2 : mo ≤ 12)
    (hd1 : 1 ≤ d) (hdm : d ≤ daysInMonth y mo) (hh : h ≤ 23) (hmi : mi ≤ 59)
    (hs : s ≤ 59) (hms : ms ≤ 999) :
    strptime (tsRender y mo d h mi s ms) = some ⟨y, mo, d, h, mi, s, ms * 1000⟩ := by
  have hd2 : d ≤ 31 := hdm.trans (daysInMonth_le_31 y mo)
  rw [strptime, strptimeMatch_render hy2 hmo1 hmo2 hd1 hd2 hh hmi hs hms]
  simp only [List.isEmpty_nil, if_true]
  rw [mkDatetime, if_pos]
  exact ⟨hy1, hy2, hmo1, hmo2, hd1, hdm, hh, hmi, hs, by omega⟩

/-- C4: for every well-formed line of the shape
`YYYY-MM-DD HH:MM:SS,mmm: <msg>` (zero-padded fields of a valid calendar
timestamp, then the delimiter `": "`, then an arbitrary message), the Line
Parser returns exactly that timestamp (millisecond precision; `datetime`
stores `mmm` as `mmm * 1000` microseconds) and exactly `<msg>`: everything
after the first `": "`, with any further `": "` occurrences inside the
message fully re-joined, not truncated.  With `msg = []` this covers a
line whose delimiter is its last two characters, which yields the empty
message string rather than absent. -/
theorem C4_parser_wellformed_exact (y mo d h mi s ms : Nat) (msg : List Char)
    (hy1 : 1 ≤ y) (hy2 : y ≤ 9999) (hmo1 : 1 ≤ mo) (hmo2 : mo ≤ 12)
    (hd1 : 1 ≤ d) (hdm : d ≤ daysInMonth y mo) (hh : h ≤ 23) (hmi : mi ≤ 59)
    (hs : s ≤ 59) (hms : ms ≤ 999) :
    parse_log_line (tsRender y mo d h mi s ms ++ ':' :: ' ' :: msg)
      = some (⟨y, mo, d, h, mi, s, ms * 1000⟩, msg) := by
  simp only [parse_log_line, splitCS_append_noCS _ _ (hasCS_tsRender y mo d h mi s ms),
    strptime_render hy1 hy2 hmo1 hmo2 hd1 hdm hh hmi hs hms, joinCS_splitCS]

/-- Witness for C4 at concrete inputs: a message with an embedded `": "`
is recovered fully re-joined, and the empty message yields the empty
string rather than absent. -/
theorem C4_parser_wellformed_exact_witness :
    parse_log_line (cls "2024-01-15 09:30:00,123: a: b")
        = some (⟨2024, 1, 15, 9, 30, 0, 123000⟩, cls "a: b")
      ∧ parse_log_line (cls "2024-01-15 09:30:00,123: ")
        = some (⟨2024, 1, 15, 9, 30, 0, 123000⟩, []) := by
  constructor
  · exact C4_parser_wellformed_exact 2024 1 15 9 30 0 123 (cls "a: b")
      (by decide) (by decide) (by decide) (by decide) (by decide) (by decide)
      (by decide) (by decide) (by decide) (by decide)
  · exact C4_parser_wellformed_exact 2024 1 15 9 30 0 123 []
      (by decide) (by decide) (by decide) (by decide) (by decide) (by decide)
      (by decide) (by decide) (by decide) (by decide)

theorem isDigit_ne_of {c x : Char} (h : c.isDigit = true) (hx : x.isDigit = false) : c ≠ x := by
  intro he
  subst he
  rw [h] at hx
  cases hx

theorem oiLit_prefix_cons_false {c : Char} (rest : List Char) (h : c ≠ 'O') :
    oiLit.isPrefixOf (c :: rest) = false := by
  simp [oiLit, cls, List.isPrefixOf, Ne.symm h]

theorem oiLit_prefix_dest {s : List Char} (h : oiLit.isPrefixOf s = true) :
    ∃ u, s = 'O' :: 'I' :: ':' :: u := by
  rcases s with _ | ⟨a, _ | ⟨b, _ | ⟨c, u⟩⟩⟩ <;> simp [oiLit, cls, List.isPrefixOf] at h
  obtain ⟨h1, h2, h3⟩ := h
  subst h1
  subst h2
  subst h3
  exact ⟨u, rfl⟩

theorem oiOccSpec_cons_ne {c : Char} (rest : List Char) (h : c ≠ 'O') :
    oiOccSpec (c :: rest) = oiOccSpec rest := by
  rw [oiOccSpec]
  simp [oiLit_prefix_cons_false _ h]

theorem oiOccSpec_digits_append (ds t : List Char) (h : ∀ c ∈ ds, c.isDigit = true) :
    oiOccSpec (ds ++ t) = oiOccSpec t := by
  induction ds with
  | nil => rfl
  | cons c ds ih =>
      have hc : c.isDigit = true := h c (List.mem_cons_self c ds)
      have hne : c ≠ 'O' := isDigit_ne_of hc (by decide)
      rw [List.cons_append, oiOccSpec_cons_ne _ hne]
      exact ih (fun x hx => h x (List.mem_cons_of_mem c hx))

theorem length_dropWhile_le_self (p : Char → Bool) (l : List Char) :
    (l.dropWhile p).length ≤ l.length := by
  induction l with
  | nil => simp
  | cons c t ih =>
      rw [List.dropWhile_cons]
      by_cases hc : p c = true
      · rw [if_pos hc]
        simp only [List.length_cons]
        omega
      · rw [if_neg hc]

theorem findOIGo_eq_oiOccSpec (fuel : Nat) :
    ∀ s : List Char, s.length ≤ fuel → findOIGo fuel s = oiOccSpec s := by
  induction fuel with
  | zero =>
      intro s hs
      cases s with
      | nil => rfl
      | cons c rest => simp at hs
  | succ fuel ih =>
      intro s hs
      cases s with
      | nil => rfl
      | cons c rest =>
          rw [findOIGo, oiOccSpec]
          by_cases hp : oiLit.isPrefixOf (c :: rest) = true
              ∧ (((c :: rest).drop 3).takeWhile Char.isDigit) ≠ []
          · rw [if_pos hp, if_pos hp]
            obtain ⟨hpre, hds⟩ := hp
            obtain ⟨u, hu⟩ := oiLit_prefix_dest hpre
            have hc : c = 'O' := (List.cons.inj hu).1
            have hr : rest = 'I' :: ':' :: u := (List.cons.inj hu).2
            subst hc
            subst hr
            have hdrop : (('O' :: 'I' :: ':' :: u).drop 3) = u := rfl
            rw [hdrop]
            have hlen : (u.dropWhile Char.isDigit).length ≤ fuel := by
              have h1 : (u.dropWhile Char.isDigit).length ≤ u.length :=
                length_dropWhile_le_self Char.isDigit u
              simp at hs
              omega
            rw [ih _ hlen]
            have hskip : oiOccSpec u = oiOccSpec (u.dropWhile Char.isDigit) := by
              conv_lhs => rw [← List.takeWhile_append_dropWhile (p := Char.isDigit) (l := u)]
              exact oiOccSpec_digits_append _ _ (fun x hx => List.mem_takeWhile_imp hx)
            rw [oiOccSpec_cons_ne _ (by decide : ('I' : Char) ≠ 'O'),
              oiOccSpec_cons_ne _ (by decide : (':' : Char) ≠ 'O'), ← hskip]
            rfl
          · rw [if_neg hp, if_neg hp, List.nil_append]
            exact ih rest (by simp at hs; omega)

theorem findOI_eq_oiOccSpec (s : List Char) : findOI s = oiOccSpec s :=
  findOIGo_eq_oiOccSpec s.length s (le_refl _)

/-- C6: the OI Extractor contract.  Without the literal marker
`"ATM CE OI:"` the result is absent even if `OI:<digits>` occurrences
exist; with the marker but fewer than two occurrences of `OI:` immediately
followed by decimal digits the result is absent; with the marker and at
least two occurrences the first two digit runs, in left-to-right order of
appearance, become `(ce_oi, pe_oi)` as non-negative integers, all further
occurrences ignored.  Occurrences are expressed by the positional scan
`oiOccSpec`, written from the spec's wording. -/
theorem C6_oi_extractor (msg : List Char) :
    (containsSub oiMarker msg = false → extract_oi_data msg = none) ∧
    (containsSub oiMarker msg = true → (oiOccSpec msg).length < 2 →
      extract_oi_data msg = none) ∧
    (∀ a b l, containsSub oiMarker msg = true → oiOccSpec msg = a :: b :: l →
      extract_oi_data msg = some (a, b)) := by
  refine ⟨?_, ?_, ?_⟩
  · intro h
    rw [extract_oi_data, if_neg (by simp [h])]
  · intro h hlen
    rw [extract_oi_data, if_pos h, findOI_eq_oiOccSpec]
    rcases hE : oiOccSpec msg with _ | ⟨a, _ | ⟨b, l⟩⟩
    · rfl
    · rfl
    · rw [hE] at hlen
      simp only [List.length_cons] at hlen
      omega
  · intro a b l h hE
    rw [extract_oi_data, if_pos h, findOI_eq_oiOccSpec, hE]

/-- Witness for C6: a message with three `OI:<digits>` occurrences yields
the first two; a message with one occurrence yields absent. -/
theorem C6_oi_extractor_witness :
    containsSub oiMarker (cls "ATM CE OI:15 PE OI:12 OI:7") = true
      ∧ oiOccSpec (cls "ATM CE OI:15 PE OI:12 OI:7") = [15, 12, 7]
      ∧ extract_oi_data (cls "ATM CE OI:15 PE OI:12 OI:7") = some (15, 12)
      ∧ containsSub oiMarker (cls "ATM CE OI:15") = true
      ∧ (oiOccSpec (cls "ATM CE OI:15")).length < 2
      ∧ extract_oi_data (cls "ATM CE OI:15") = none := by
  refine ⟨by decide, by decide, ?_, by decide, by decide, ?_⟩
  · exact (C6_oi_extractor _).2.2 15 12 [7] (by decide) (by decide)
  · exact (C6_oi_extractor _).2.1 (by decide) (by decide)

theorem capAlts_cons_pos {c : Char} (t : List Char) (h : c.isDigit = true) :
    capAlts (c :: t) = (capAlts t).map (fun p => (c :: p.1, p.2)) ++ [([c], t)] := by
  rw [capAlts, if_pos h]

theorem capAlts_cons_neg {c : Char} (t : List Char) (h : ¬ c.isDigit = true) :
    capAlts (c :: t) = [] := by
  rw [capAlts, if_neg h]

theorem digAlts_cons_pos {c : Char} (t : List Char) (h : c.isDigit = true) :
    digAlts (c :: t) = digAlts t ++ [t] := by
  rw [digAlts, if_pos h]

theorem digAlts_cons_neg {c : Char} (t : List Char) (h : ¬ c.isDigit = true) :
    digAlts (c :: t) = [] := by
  rw [digAlts, if_neg h]

theorem takeWhile_nil_dropWhile_self {p : Char → Bool} {l : List Char}
    (h : l.takeWhile p = []) : l.dropWhile p = l := by
  cases l with
  | nil => rfl
  | cons x xs =>
      rw [List.takeWhile_cons] at h
      by_cases hx : p x = true
      · rw [if_pos hx] at h
        cases h
      · rw [List.dropWhile_cons, if_neg hx]

theorem exists_digit_head {t : List Char} (h : t.takeWhile Char.isDigit ≠ []) :
    ∃ d t2, t = d :: t2 ∧ d.isDigit = true := by
  cases t with
  | nil => simp at h
  | cons x xs =>
      rw [List.takeWhile_cons] at h
      by_cases hx : x.isDigit = true
      · exact ⟨x, xs, rfl, hx⟩
      · rw [if_neg hx] at h
        simp at h

theorem cePeHead_digit_head {c : Char} (x : List Char) (h : c.isDigit = true) :
    cePeHead (c :: x) = false := by
  have h1 : c ≠ 'C' := isDigit_ne_of h (by decide)
  have h2 : c ≠ 'P' := isDigit_ne_of h (by decide)
  cases x with
  | nil => rfl
  | cons b y => simp [cePeHead, h1, h2]

theorem getLastD_cons_irrel (l : List Char) (c d1 d2 : Char) :
    (c :: l).getLastD d1 = (c :: l).getLastD d2 := by
  rw [List.getLastD_cons, List.getLastD_cons]

theorem getLastD_decomp (l : List Char) (c : Char) :
    c :: l = (c :: l).dropLast ++ [(c :: l).getLastD '0'] := by
  induction l generalizing c with
  | nil => rfl
  | cons b u ih =>
      rw [List.getLastD_cons, List.dropLast_cons₂, List.cons_append]
      have h1 : (b :: u).getLastD c = (b :: u).getLastD '0' := getLastD_cons_irrel u b c '0'
      rw [h1, ← ih b]

theorem firstSome_capMap (c : Char) (l : List (List Char × List Char)) :
    firstSome (fun p => if cePeHead p.2 = true then some (c :: p.1) else none) l
      = (firstSome (fun p => if cePeHead p.2 = true then some p.1 else none) l).map
          (fun g => c :: g) := by
  induction l with
  | nil => rfl
  | cons a t ih =>
      simp only [firstSome]
      by_cases hc : cePeHead a.2 = true <;> simp [hc, ih]

/-- Closed form of the regex tail `(\d+)(CE|PE)` at a position: it succeeds
exactly when a non-empty digit run is immediately followed by `CE` or `PE`,
and greedy preference makes the capture the whole run. -/
theorem capTry_eq (t : List Char) :
    capTry t =
      if (t.takeWhile Char.isDigit) ≠ [] ∧ cePeHead (t.dropWhile Char.isDigit) = true
      then some (t.takeWhile Char.isDigit) else none := by
  induction t with
  | nil => simp [capTry, capAlts, firstSome]
  | cons c t ih =>
      by_cases hd : c.isDigit = true
      · have hTW : (c :: t).takeWhile Char.isDigit = c :: t.takeWhile Char.isDigit := by
          rw [List.takeWhile_cons, if_pos hd]
        have hDW : (c :: t).dropWhile Char.isDigit = t.dropWhile Char.isDigit := by
          rw [List.dropWhile_cons, if_pos hd]
        rw [capTry, capAlts_cons_pos _ hd, firstSome_append]
        have hfold : firstSome (fun p => if cePeHead p.2 = true then some p.1 else none)
            ((capAlts t).map (fun p => (c :: p.1, p.2)))
            = (capTry t).map (fun g => c :: g) := by
          rw [firstSome_map]
          simp only []
          exact firstSome_capMap c (capAlts t)
        rw [hfold, ih, hTW, hDW]
        by_cases h1 : (t.takeWhile Char.isDigit) ≠ []
            ∧ cePeHead (t.dropWhile Char.isDigit) = true
        · rw [if_pos h1, if_pos ⟨by simp, h1.2⟩]
          rfl
        · rw [if_neg h1]
          rcases hTW2 : t.takeWhile Char.isDigit with _ | ⟨d, ds⟩
          · have hDW2 : t.dropWhile Char.isDigit = t := takeWhile_nil_dropWhile_self hTW2
            rw [hDW2]
            by_cases hce : cePeHead t = true
            · rw [if_pos ⟨by simp, hce⟩]
              simp [firstSome, hce]
            · rw [if_neg (fun hcon => hce hcon.2)]
              simp [firstSome, hce]
          · have hce2 : ¬ cePeHead (t.dropWhile Char.isDigit) = true := by
              intro hc2
              exact h1 ⟨by rw [hTW2]; simp, hc2⟩
            obtain ⟨d2, t2, rfl, hdd⟩ := exists_digit_head (t := t) (by rw [hTW2]; simp)
            have hceT : cePeHead (d2 :: t2) = false := cePeHead_digit_head _ hdd
            rw [if_neg (fun hcon => hce2 hcon.2)]
            simp [firstSome, hceT]
      · have hTW : (c :: t).takeWhile Char.isDigit = [] := by
          rw [List.takeWhile_cons, if_neg hd]
        rw [capTry, capAlts_cons_neg _ hd, hTW]
        rw [if_neg (fun hcon => hcon.1 rfl)]
        rfl

/-- Closed form of the regex tail `\d+(\d+)(CE|PE)` at a position: it
succeeds exactly when a digit run of length at least two is immediately
followed by `CE` or `PE`, and the greedy first `\d+` leaves the capture
exactly one character: the last digit of the run. -/
theorem runTry_eq (t : List Char) :
    runTry t =
      if 2 ≤ (t.takeWhile Char.isDigit).length ∧ cePeHead (t.dropWhile Char.isDigit) = true
      then some [(t.takeWhile Char.isDigit).getLastD '0'] else none := by
  induction t with
  | nil => simp [runTry, digAlts, firstSome]
  | cons c t ih =>
      by_cases hd : c.isDigit = true
      · have hTW : (c :: t).takeWhile Char.isDigit = c :: t.takeWhile Char.isDigit := by
          rw [List.takeWhile_cons, if_pos hd]
        have hDW : (c :: t).dropWhile Char.isDigit = t.dropWhile Char.isDigit := by
          rw [List.dropWhile_cons, if_pos hd]
        rw [runTry, digAlts_cons_pos _ hd, firstSome_append]
        rw [show firstSome (fun t3 => capTry t3) (digAlts t) = runTry t from rfl, ih, hTW, hDW]
        by_cases h1 : 2 ≤ (t.takeWhile Char.isDigit).length
            ∧ cePeHead (t.dropWhile Char.isDigit) = true
        · rw [if_pos h1]
          have htw : t.takeWhile Char.isDigit ≠ [] := by
            intro he
            rw [he] at h1
            simp at h1
          obtain ⟨d, ds, hds⟩ : ∃ d ds, t.takeWhile Char.isDigit = d :: ds := by
            rcases hE : t.takeWhile Char.isDigit with _ | ⟨d, ds⟩
            · exact absurd hE htw
            · exact ⟨d, ds, rfl⟩
          rw [if_pos ⟨by simp; omega, h1.2⟩, hds]
          rw [List.getLastD_cons, List.getLastD_cons, List.getLastD_cons]
        · rw [if_neg h1]
          by_cases h2 : (t.takeWhile Char.isDigit) ≠ []
              ∧ cePeHead (t.dropWhile Char.isDigit) = true
          · -- the run in `t` has length exactly one: the appended shortest
            -- candidate succeeds with the single digit as capture
            obtain ⟨d, hone⟩ : ∃ d, t.takeWhile Char.isDigit = [d] := by
              rcases hE : t.takeWhile Char.isDigit with _ | ⟨d, _ | ⟨e, es⟩⟩
              · exact absurd hE h2.1
              · exact ⟨d, rfl⟩
              · exact absurd ⟨by rw [hE]; simp, h2.2⟩ h1
            rw [if_pos ⟨by simp [hone], h2.2⟩]
            have hcap : capTry t = some (t.takeWhile Char.isDigit) := by
              rw [capTry_eq, if_pos h2]
            simp only [firstSome, hcap, hone]
            rw [List.getLastD_cons]
            rfl
          · -- no success anywhere
            have hcap : capTry t = none := by
              rw [capTry_eq, if_neg h2]
            simp only [firstSome, hcap]
            rw [if_neg]
            intro hcon
            rcases hcon with ⟨hlen, hce⟩
            by_cases h3 : t.takeWhile Char.isDigit = []
            · rw [h3] at hlen
              simp at hlen
            · exact h2 ⟨h3, hce⟩
      · have hTW : (c :: t).takeWhile Char.isDigit = [] := by
          rw [List.takeWhile_cons, if_neg hd]
        rw [runTry, digAlts_cons_neg _ hd, hTW]
        rw [if_neg (fun hcon => by simp at hcon)]
        rfl

/-- Backtracking through the candidates of a greedy `\d+` whose
continuation rejects every remainder that starts with a digit reduces to
the single maximal-run candidate. -/
theorem firstSome_digAlts {β : Type} (k : List Char → Option β) (t : List Char)
    (hk : ∀ c t2, c.isDigit = true → k (c :: t2) = none) :
    firstSome k (digAlts t) =
      if (t.takeWhile Char.isDigit) = [] then none else k (t.dropWhile Char.isDigit) := by
  induction t with
  | nil => simp [digAlts, firstSome]
  | cons c t ih =>
      by_cases hd : c.isDigit = true
      · have hTW : (c :: t).takeWhile Char.isDigit = c :: t.takeWhile Char.isDigit := by
          rw [List.takeWhile_cons, if_pos hd]
        have hDW : (c :: t).dropWhile Char.isDigit = t.dropWhile Char.isDigit := by
          rw [List.dropWhile_cons, if_pos hd]
        rw [digAlts_cons_pos _ hd, firstSome_append, ih, hTW, hDW,
          if_neg (by simp : ¬ (c :: t.takeWhile Char.isDigit) = [])]
        by_cases h1 : t.takeWhile Char.isDigit = []
        · rw [if_pos h1, takeWhile_nil_dropWhile_self h1]
          cases hkt : k t <;> simp [firstSome, hkt]
        · rw [if_neg h1]
          obtain ⟨d, t2, rfl, hdd⟩ := exists_digit_head (t := t) h1
          cases hkt : k ((d :: t2).dropWhile Char.isDigit) with
          | some b => simp [hkt]
          | none => simp [firstSome, hkt, hk d t2 hdd]
      · have hTW : (c :: t).takeWhile Char.isDigit = [] := by
          rw [List.takeWhile_cons, if_neg hd]
        rw [digAlts_cons_neg _ hd, hTW, if_pos rfl]
        rfl

/-- A successful anchored strike match decomposes the input as
`BANKNIFTY`, a digit run, `N` or `F`, a digit run of length at least two,
then `CE` or `PE`; the returned capture is the last digit of the second
run. -/
theorem strikeAt_some {s g : List Char} (h : strikeAt s = some g) :
    ∃ run1 nf run2 rest,
      s = bankLit ++ (run1 ++ nf :: (run2 ++ rest))
      ∧ run1 ≠ [] ∧ (∀ c ∈ run1, c.isDigit = true)
      ∧ (nf = 'N' ∨ nf = 'F')
      ∧ 2 ≤ run2.length ∧ (∀ c ∈ run2, c.isDigit = true)
      ∧ cePeHead rest = true
      ∧ g = [run2.getLastD '0'] := by
  rw [strikeAt] at h
  by_cases hp : bankLit.isPrefixOf s = true
  · rw [if_pos hp] at h
    rw [firstSome_digAlts _ _ (fun c t2 hc => by
      show (if c = 'N' ∨ c = 'F' then runTry t2 else none) = none
      rw [if_neg]
      rintro (rfl | rfl)
      · exact absurd hc (by decide)
      · exact absurd hc (by decide))] at h
    by_cases h0 : (s.drop 9).takeWhile Char.isDigit = []
    · rw [if_pos h0] at h
      cases h
    · rw [if_neg h0] at h
      rcases hdw : (s.drop 9).dropWhile Char.isDigit with _ | ⟨nf, t2⟩
      · rw [hdw] at h
        cases h
      · rw [hdw] at h
        have hif : (if nf = 'N' ∨ nf = 'F' then runTry t2 else none) = some g := h
        clear h
        by_cases hnf : nf = 'N' ∨ nf = 'F'
        · rw [if_pos hnf, runTry_eq] at hif
          by_cases h2 : 2 ≤ (t2.takeWhile Char.isDigit).length
              ∧ cePeHead (t2.dropWhile Char.isDigit) = true
          · rw [if_pos h2] at hif
            have hg : g = [(t2.takeWhile Char.isDigit).getLastD '0'] :=
              (Option.some.inj hif).symm
            have hs : s = bankLit ++ s.drop 9 := by
              have hpre : bankLit <+: s := List.isPrefixOf_iff_prefix.mp hp
              have := List.prefix_iff_eq_append.mp hpre
              exact this.symm
            refine ⟨(s.drop 9).takeWhile Char.isDigit, nf, t2.takeWhile Char.isDigit,
              t2.dropWhile Char.isDigit, ?_, h0, ?_, hnf, h2.1, ?_, h2.2, hg⟩
            · rw [List.takeWhile_append_dropWhile, ← hdw, List.takeWhile_append_dropWhile]
              exact hs
            · exact fun c hc => List.mem_takeWhile_imp hc
            · exact fun c hc => List.mem_takeWhile_imp hc
          · rw [if_neg h2] at hif
            cases hif
        · rw [if_neg hnf] at hif
          cases hif
  · rw [if_neg hp] at h
    cases h

/-- The scan result is the leftmost anchored match: it decomposes the
input, and no anchored match starts at any strictly earlier position. -/
theorem findStrike_some {s g : List Char} (h : findStrike s = some g) :
    ∃ pre suf, s = pre ++ suf ∧ strikeAt suf = some g
      ∧ ∀ pre2 suf2, s = pre2 ++ suf2 → pre2.length < pre.length →
          strikeAt suf2 = none := by
  induction s with
  | nil => cases h
  | cons c rest ih =>
      rw [findStrike] at h
      cases hsa : strikeAt (c :: rest) with
      | some g2 =>
          rw [hsa] at h
          refine ⟨[], c :: rest, rfl, by rw [hsa, Option.some.inj h], ?_⟩
          intro pre2 suf2 heq2 hlt
          simp at hlt
      | none =>
          rw [hsa] at h
          obtain ⟨pre, suf, heq, hsa2, hmin⟩ := ih h
          refine ⟨c :: pre, suf, by rw [List.cons_append, ← heq], hsa2, ?_⟩
          intro pre2 suf2 heq2 hlt
          cases pre2 with
          | nil =>
              rw [List.nil_append] at heq2
              rw [← heq2]
              exact hsa
          | cons c2 pre2b =>
              rw [List.cons_append] at heq2
              have hr : rest = pre2b ++ suf2 := (List.cons.inj heq2).2
              have hlt2 : pre2b.length < pre.length := by
                simp only [List.length_cons] at hlt
                omega
              exact hmin pre2b suf2 hr hlt2

/-- A successful strike extraction decomposes the message around the match
and returns the last digit of the run before the `CE`/`PE` suffix; the
match is the leftmost one: no anchored match starts strictly earlier. -/
theorem extract_strike_some {msg g : List Char} (h : extract_strike_data msg = some g) :
    ∃ pre run1 nf run2 rest,
      msg = pre ++ (bankLit ++ (run1 ++ nf :: (run2 ++ rest)))
      ∧ run1 ≠ [] ∧ (∀ c ∈ run1, c.isDigit = true)
      ∧ (nf = 'N' ∨ nf = 'F')
      ∧ 2 ≤ run2.length ∧ (∀ c ∈ run2, c.isDigit = true)
      ∧ cePeHead rest = true
      ∧ g = [run2.getLastD '0']
      ∧ ∀ pre2 suf2, msg = pre2 ++ suf2 → pre2.length < pre.length →
          strikeAt suf2 = none := by
  rw [extract_strike_data] at h
  by_cases hm : containsSub strikesMarker msg = true
  · rw [if_pos hm] at h
    obtain ⟨pre, suf, heq, hsa, hmin⟩ := findStrike_some h
    obtain ⟨run1, nf, run2, rest, hdec, hr1, hr1d, hnf, hlen, hr2d, hce, hg⟩ :=
      strikeAt_some hsa
    exact ⟨pre, run1, nf, run2, rest, by rw [heq, hdec], hr1, hr1d, hnf, hlen, hr2d, hce,
      hg, fun pre2 suf2 heq2 hlt => hmin pre2 suf2 heq2 hlt⟩
  · rw [if_neg hm] at h
    cases h

theorem extract_strike_ne_nil {msg g : List Char} (h : extract_strike_data msg = some g) :
    g ≠ [] := by
  obtain ⟨_, _, _, _, _, _, _, _, _, _, _, _, hg, _⟩ := extract_strike_some h
  rw [hg]
  simp

/-- C10: for every message on which the Strike Extractor succeeds, the
returned strike string has length exactly one: it is a single digit
character that immediately precedes a `CE` or `PE` suffix of the message,
because the greedy digit run before the capture group consumes all but the
last digit. -/
theorem C10_strike_single_digit (msg g : List Char)
    (h : extract_strike_data msg = some g) :
    g.length = 1 ∧ ∃ d u v, g = [d] ∧ d.isDigit = true
      ∧ (msg = u ++ d :: 'C' :: 'E' :: v ∨ msg = u ++ d :: 'P' :: 'E' :: v) := by
  obtain ⟨pre, run1, nf, run2, rest, hdec, hr1, hr1d, hnf, hlen, hr2d, hce, hg, _⟩ :=
    extract_strike_some h
  obtain ⟨d2, run2', rfl⟩ : ∃ d2 run2', run2 = d2 :: run2' := by
    cases run2 with
    | nil => simp at hlen
    | cons a b => exact ⟨a, b, rfl⟩
  have hsplit : d2 :: run2' = (d2 :: run2').dropLast ++ [(d2 :: run2').getLastD '0'] :=
    getLastD_decomp run2' d2
  obtain ⟨x, y, v, rfl⟩ : ∃ x y v, rest = x :: y :: v := by
    cases rest with
    | nil => simp [cePeHead] at hce
    | cons x r2 =>
        cases r2 with
        | nil => simp [cePeHead] at hce
        | cons y v => exact ⟨x, y, v, rfl⟩
  have hxE : (x = 'C' ∨ x = 'P') ∧ y = 'E' := by simpa [cePeHead] using hce
  obtain ⟨hx, rfl⟩ := hxE
  have hdig : ((d2 :: run2').getLastD '0').isDigit = true := by
    have hmem : (d2 :: run2').getLastD '0'
        ∈ (d2 :: run2').dropLast ++ [(d2 :: run2').getLastD '0'] := by simp
    rw [← hsplit] at hmem
    exact hr2d _ hmem
  refine ⟨by rw [hg]; rfl, (d2 :: run2').getLastD '0',
    pre ++ bankLit ++ run1 ++ nf :: (d2 :: run2').dropLast, v, hg, hdig, ?_⟩
  rcases hx with rfl | rfl
  · left
    rw [hdec]
    conv_lhs => rw [hsplit]
    simp [List.append_assoc]
  · right
    rw [hdec]
    conv_lhs => rw [hsplit]
    simp [List.append_assoc]

/-- Witness for C10: at a concrete message, the extractor returns `"0"`,
a one-character digit string immediately preceding the `CE` suffix. -/
theorem C10_strike_single_digit_witness :
    extract_strike_data (cls "ATM strikes: BANKNIFTY24N1245000CE") = some (cls "0")
      ∧ ((cls "0").length = 1 ∧ ∃ d u v, cls "0" = [d] ∧ d.isDigit = true
          ∧ (cls "ATM strikes: BANKNIFTY24N1245000CE" = u ++ d :: 'C' :: 'E' :: v
            ∨ cls "ATM strikes: BANKNIFTY24N1245000CE" = u ++ d :: 'P' :: 'E' :: v)) :=
  ⟨by decide, C10_strike_single_digit _ (cls "0") (by decide)⟩

/-- C2 counterexample: in the message below, the full numeric group
immediately preceding the `CE` suffix is `1245000` (and the strike field
of the instrument code reads `45000`), yet the extractor returns the
one-character string `"0"`: the result is not the full numeric group and
cannot preserve leading zeros of the strike. -/
theorem C2_full_group_counterexample :
    extract_strike_data (cls "ATM strikes: BANKNIFTY24N1245000CE") = some (cls "0")
      ∧ cls "0" ≠ cls "1245000" ∧ cls "0" ≠ cls "45000" :=
  ⟨by decide, by decide, by decide⟩

theorem nf_not_digit {nf : Char} (hnf : nf = 'N' ∨ nf = 'F') : nf.isDigit = false := by
  rcases hnf with rfl | rfl <;> decide

theorem takeWhile_digits_append {run : List Char} (y : List Char)
    (hd : ∀ c ∈ run, c.isDigit = true) :
    (run ++ y).takeWhile Char.isDigit = run ++ y.takeWhile Char.isDigit := by
  induction run with
  | nil => simp
  | cons c t ih =>
      have hc : c.isDigit = true := hd c (List.mem_cons_self c t)
      rw [List.cons_append, List.takeWhile_cons, if_pos hc,
        ih (fun x hx => hd x (List.mem_cons_of_mem c hx)), List.cons_append]

theorem dropWhile_digits_append {run : List Char} (y : List Char)
    (hd : ∀ c ∈ run, c.isDigit = true) :
    (run ++ y).dropWhile Char.isDigit = y.dropWhile Char.isDigit := by
  induction run with
  | nil => simp
  | cons c t ih =>
      have hc : c.isDigit = true := hd c (List.mem_cons_self c t)
      rw [List.cons_append, List.dropWhile_cons, if_pos hc,
        ih (fun x hx => hd x (List.mem_cons_of_mem c hx))]

theorem cePeHead_head_not_digit {rest : List Char} (hce : cePeHead rest = true) :
    rest.takeWhile Char.isDigit = [] ∧ rest.dropWhile Char.isDigit = rest := by
  rcases rest with _ | ⟨x, _ | ⟨y, v⟩⟩
  · simp [cePeHead] at hce
  · simp [cePeHead] at hce
  · have hx : (x = 'C' ∨ x = 'P') ∧ y = 'E' := by simpa [cePeHead] using hce
    have hxd : ¬ x.isDigit = true := by
      rcases hx.1 with rfl | rfl <;> decide
    constructor
    · rw [List.takeWhile_cons, if_neg hxd]
    · rw [List.dropWhile_cons, if_neg hxd]

/-- Converse of `strikeAt_some`: at any position carrying a decomposition
of the instrument-code shape, the anchored regex match succeeds, returning
the last digit of the second run. -/
theorem strikeAt_decomp_some {run1 run2 rest : List Char} {nf : Char}
    (hr1 : run1 ≠ []) (hr1d : ∀ c ∈ run1, c.isDigit = true)
    (hnf : nf = 'N' ∨ nf = 'F')
    (hlen : 2 ≤ run2.length) (hr2d : ∀ c ∈ run2, c.isDigit = true)
    (hce : cePeHead rest = true) :
    strikeAt (bankLit ++ (run1 ++ nf :: (run2 ++ rest)))
      = some [run2.getLastD '0'] := by
  have hp : bankLit.isPrefixOf (bankLit ++ (run1 ++ nf :: (run2 ++ rest))) = true :=
    List.isPrefixOf_iff_prefix.mpr ⟨_, rfl⟩
  rw [strikeAt, if_pos hp]
  have hdrop : (bankLit ++ (run1 ++ nf :: (run2 ++ rest))).drop 9
      = run1 ++ nf :: (run2 ++ rest) := List.drop_left bankLit _
  rw [hdrop]
  rw [firstSome_digAlts _ _ (fun c t2 hc => by
    show (if c = 'N' ∨ c = 'F' then runTry t2 else none) = none
    rw [if_neg]
    rintro (rfl | rfl)
    · exact absurd hc (by decide)
    · exact absurd hc (by decide))]
  have hnfd : ¬ nf.isDigit = true := by
    rw [nf_not_digit hnf]
    exact Bool.false_ne_true
  have hTW : (run1 ++ nf :: (run2 ++ rest)).takeWhile Char.isDigit = run1 := by
    rw [takeWhile_digits_append _ hr1d, List.takeWhile_cons, if_neg hnfd, List.append_nil]
  have hDW : (run1 ++ nf :: (run2 ++ rest)).dropWhile Char.isDigit
      = nf :: (run2 ++ rest) := by
    rw [dropWhile_digits_append _ hr1d, List.dropWhile_cons, if_neg hnfd]
  rw [hTW, hDW, if_neg hr1]
  show (if nf = 'N' ∨ nf = 'F' then runTry (run2 ++ rest) else none)
      = some [run2.getLastD '0']
  rw [if_pos hnf, runTry_eq]
  have hrest := cePeHead_head_not_digit hce
  have hTW2 : (run2 ++ rest).takeWhile Char.isDigit = run2 := by
    rw [takeWhile_digits_append _ hr2d, hrest.1, List.append_nil]
  have hDW2 : (run2 ++ rest).dropWhile Char.isDigit = rest := by
    rw [dropWhile_digits_append _ hr2d, hrest.2]
  rw [hTW2, hDW2, if_pos ⟨hlen, hce⟩]

/-- C2 (amended): for every message containing the marker
`"ATM strikes:"` and matching the instrument-code pattern, the Strike
Extractor returns, kept as a string, exactly the last digit of the digit
run immediately preceding the `CE`/`PE` suffix of the FIRST match only
(the greedy `\d+` preceding the capture group consumes the rest of the
run): the message decomposes around a full `BANKNIFTY`-anchored
instrument-code match, and no decomposition of that shape starts at any
strictly earlier position.  If the marker is absent, or the pattern has
no match, the extractor returns absent. -/
theorem C2_strike_last_digit (msg : List Char) :
    (containsSub strikesMarker msg = false → extract_strike_data msg = none) ∧
    (findStrike msg = none → extract_strike_data msg = none) ∧
    (∀ g, extract_strike_data msg = some g →
      ∃ pre run1 nf run2 rest,
        msg = pre ++ (bankLit ++ (run1 ++ nf :: (run2 ++ rest)))
        ∧ run1 ≠ [] ∧ (∀ c ∈ run1, c.isDigit = true)
        ∧ (nf = 'N' ∨ nf = 'F')
        ∧ 2 ≤ run2.length ∧ (∀ c ∈ run2, c.isDigit = true)
        ∧ cePeHead rest = true
        ∧ g = [run2.getLastD '0']
        ∧ ∀ pre2 run1b nfb run2b restb,
            msg = pre2 ++ (bankLit ++ (run1b ++ nfb :: (run2b ++ restb))) →
            run1b ≠ [] → (∀ c ∈ run1b, c.isDigit = true) →
            (nfb = 'N' ∨ nfb = 'F') →
            2 ≤ run2b.length → (∀ c ∈ run2b, c.isDigit = true) →
            cePeHead restb = true →
            pre.length ≤ pre2.length) := by
  refine ⟨?_, ?_, ?_⟩
  · intro hm
    rw [extract_strike_data, if_neg (by simp [hm])]
  · intro hf
    rw [extract_strike_data]
    by_cases hm : containsSub strikesMarker msg = true
    · rw [if_pos hm, hf]
    · rw [if_neg hm]
  · intro g h
    obtain ⟨pre, run1, nf, run2, rest, hdec, hr1, hr1d, hnf, hlen, hr2d, hce, hg, hmin⟩ :=
      extract_strike_some h
    refine ⟨pre, run1, nf, run2, rest, hdec, hr1, hr1d, hnf, hlen, hr2d, hce, hg, ?_⟩
    intro pre2 run1b nfb run2b restb hdec2 hr1b hr1bd hnfb hlenb hr2bd hceb
    by_contra hlt
    push_neg at hlt
    have hnone := hmin pre2 _ hdec2 hlt
    rw [strikeAt_decomp_some hr1b hr1bd hnfb hlenb hr2bd hceb] at hnone
    cases hnone

/-- Witness for C2 (amended), at a concrete message. -/
theorem C2_strike_last_digit_witness :
    ∃ pre run1 nf run2 rest,
      cls "ATM strikes: BANKNIFTY24N1245000CE"
          = pre ++ (bankLit ++ (run1 ++ nf :: (run2 ++ rest)))
        ∧ run1 ≠ [] ∧ (∀ c ∈ run1, c.isDigit = true)
        ∧ (nf = 'N' ∨ nf = 'F')
        ∧ 2 ≤ run2.length ∧ (∀ c ∈ run2, c.isDigit = true)
        ∧ cePeHead rest = true
        ∧ cls "0" = [run2.getLastD '0']
        ∧ ∀ pre2 run1b nfb run2b restb,
            cls "ATM strikes: BANKNIFTY24N1245000CE"
                = pre2 ++ (bankLit ++ (run1b ++ nfb :: (run2b ++ restb))) →
            run1b ≠ [] → (∀ c ∈ run1b, c.isDigit = true) →
            (nfb = 'N' ∨ nfb = 'F') →
            2 ≤ run2b.length → (∀ c ∈ run2b, c.isDigit = true) →
            cePeHead restb = true →
            pre.length ≤ pre2.length :=
  (C2_strike_last_digit _).2.2 (cls "0") (by decide)

theorem processAll_append (l1 l2 : List (List Char)) :
    processAll (l1 ++ l2) = processAll l1 ++ processAll l2 := by
  induction l1 with
  | nil => rfl
  | cons l ls ih => rw [List.cons_append, processAll, processAll, ih, List.append_assoc]

theorem processLine_mem_oi {l : List Char} {ts : Timestamp} {c p : Nat} {dif : Int}
    (h : Row.oi ts c p dif ∈ processLine l) : dif = (c : Int) - (p : Int) := by
  rw [processLine] at h
  rcases hpl : parse_log_line l with _ | ⟨ts2, msg⟩
  · rw [hpl] at h
    simp at h
  · rw [hpl] at h
    have hnotin : Row.oi ts c p dif ∉
        (match extract_strike_data msg with
         | some g => if g.isEmpty then [] else [Row.strike ts2 g]
         | none => []) := by
      rcases extract_strike_data msg with _ | g
      · simp
      · by_cases hg : g.isEmpty = true <;> simp [hg]
    rcases List.mem_append.mp h with h1 | h1
    · rcases hoi : extract_oi_data msg with _ | cp
      · rw [hoi] at h1
        simp at h1
      · rw [hoi] at h1
        simp at h1
        omega
    · exact absurd h1 hnotin

theorem processAll_mem_oi {ls : List (List Char)} {ts : Timestamp} {c p : Nat} {dif : Int}
    (h : Row.oi ts c p dif ∈ processAll ls) : dif = (c : Int) - (p : Int) := by
  induction ls with
  | nil => simp [processAll] at h
  | cons l ls ih =>
      rw [processAll] at h
      rcases List.mem_append.mp h with h1 | h1
      · exact processLine_mem_oi h1
      · exact ih h1

/-- C8: every OIRecord row the pipeline produces has
`oi_difference = ce_oi - pe_oi` as a signed integer, including the
negative case `pe_oi > ce_oi`. -/
theorem C8_oi_difference_signed (t : List Char) (ts : Timestamp) (c p : Nat) (dif : Int)
    (h : Row.oi ts c p dif ∈ process_log_data t) : dif = (c : Int) - (p : Int) := by
  rw [process_log_data] at h
  exact processAll_mem_oi h

/-- Witness for C8, with `pe_oi > ce_oi` so the difference is negative. -/
theorem C8_oi_difference_signed_witness :
    Row.oi ⟨2024, 1, 15, 9, 30, 0, 123000⟩ 12 15 (-3)
        ∈ process_log_data (cls "2024-01-15 09:30:00,123: ATM CE OI:12 PE OI:15")
      ∧ (-3 : Int) = (12 : Int) - (15 : Int) :=
  ⟨by decide,
    C8_oi_difference_signed (cls "2024-01-15 09:30:00,123: ATM CE OI:12 PE OI:15")
      ⟨2024, 1, 15, 9, 30, 0, 123000⟩ 12 15 (-3) (by decide)⟩

/-- C7: a parsed line whose message satisfies both extractors contributes
exactly two rows sharing the line's timestamp, the OIRecord first and the
StrikeRecord second; and the series is assembled in input line order: the
rows of a text split at a newline are the rows of the first part followed
by the rows of the second, never re-sorted. -/
theorem C7_both_rows_and_input_order :
    (∀ line ts msg c p g, parse_log_line line = some (ts, msg) →
        extract_oi_data msg = some (c, p) → extract_strike_data msg = some g →
        processLine line = [Row.oi ts c p ((c : Int) - (p : Int)), Row.strike ts g])
      ∧ (∀ t1 t2 : List Char,
          process_log_data (t1 ++ '\n' :: t2)
            = process_log_data t1 ++ process_log_data t2) := by
  constructor
  · intro line ts msg c p g hpl hoi hst
    obtain ⟨x, xs, rfl⟩ : ∃ x xs, g = x :: xs := by
      rcases g with _ | ⟨x, xs⟩
      · exact absurd rfl (extract_strike_ne_nil hst)
      · exact ⟨x, xs, rfl⟩
    simp [processLine, hpl, hoi, hst]
  · intro t1 t2
    rw [process_log_data, process_log_data, process_log_data, splitNL_append,
      processAll_append]

/-- Witness for C7: a line with both markers yields the OI row and the
strike row with one shared timestamp; concatenation at a newline
concatenates the row lists. -/
theorem C7_both_rows_and_input_order_witness :
    processLine
        (cls "2024-01-15 09:30:00,123: ATM CE OI:15 PE OI:12 ATM strikes: BANKNIFTY24N1245000CE")
      = [Row.oi ⟨2024, 1, 15, 9, 30, 0, 123000⟩ 15 12 3,
         Row.strike ⟨2024, 1, 15, 9, 30, 0, 123000⟩ (cls "0")] := by
  have h := C7_both_rows_and_input_order.1
    (cls "2024-01-15 09:30:00,123: ATM CE OI:15 PE OI:12 ATM strikes: BANKNIFTY24N1245000CE")
    ⟨2024, 1, 15, 9, 30, 0, 123000⟩
    (cls "ATM CE OI:15 PE OI:12 ATM strikes: BANKNIFTY24N1245000CE")
    15 12 (cls "0") (by decide) (by decide) (by decide)
  exact h

/-- C5 counterexample: the line `2024-01-15 09:30:00,123` contains no
`": "` delimiter at all, yet the Line Parser does not return absent: the
split leaves the whole line as the timestamp candidate, it parses, and the
message is the empty string. -/
theorem C5_no_delimiter_counterexample :
    hasCS (cls "2024-01-15 09:30:00,123") = false
      ∧ parse_log_line (cls "2024-01-15 09:30:00,123")
          = some (⟨2024, 1, 15, 9, 30, 0, 123000⟩, []) :=
  ⟨by decide, by decide⟩

/-- C5 (amended): for every input line whose timestamp candidate (the text
before the first `": "`, or the whole line when no `": "` occurs) does not
parse in the code's timestamp format, the Line Parser returns absent, the
line contributes no rows, and the Series Builder continues with the
remaining lines unchanged; the embedding is total, so no error escapes and
the empty TimeSeries is an ordinary value. -/
theorem C5_parse_failure_skipped (line : List Char)
    (h : strptime ((splitCS line).headD []) = none) :
    parse_log_line line = none ∧ processLine line = []
      ∧ ∀ rest, processAll (line :: rest) = processAll rest := by
  have hpl : parse_log_line line = none := by
    rw [parse_log_line]
    rcases hsp : splitCS line with _ | ⟨tsStr, parts⟩
    · rfl
    · rw [hsp, List.headD_cons] at h
      show (match strptime tsStr with
        | some t => some (t, joinCS parts)
        | none => none) = none
      rw [h]
  refine ⟨hpl, by simp only [processLine, hpl], fun rest => ?_⟩
  simp only [processAll, processLine, hpl, List.nil_append]

/-- Witness for C5 (amended): an unparsable line is skipped and the
following line still contributes its row. -/
theorem C5_parse_failure_skipped_witness :
    parse_log_line (cls "garbage line with no timestamp") = none
      ∧ processLine (cls "garbage line with no timestamp") = []
      ∧ processAll [cls "garbage line with no timestamp",
          cls "2024-01-15 09:30:00,123: ATM CE OI:5 PE OI:4"]
        = processAll [cls "2024-01-15 09:30:00,123: ATM CE OI:5 PE OI:4"] := by
  obtain ⟨h1, h2, h3⟩ :=
    C5_parse_failure_skipped (cls "garbage line with no timestamp") (by decide)
  exact ⟨h1, h2, h3 _⟩

/-- C9: the Series Builder is a pure function of the input text: any two
runs on identical input produce identical TimeSeries (in this functional
embedding, determinism holds by construction: there is no hidden state). -/
theorem C9_deterministic (t : List Char) (r1 r2 : List Row)
    (h1 : process_log_data t = r1) (h2 : process_log_data t = r2) : r1 = r2 :=
  h1.symm.trans h2

/-- Witness for C9 at a concrete input. -/
theorem C9_deterministic_witness :
    ([Row.oi ⟨2024, 1, 15, 9, 30, 0, 123000⟩ 5 4 1] : List Row)
      = [Row.oi ⟨2024, 1, 15, 9, 30, 0, 123000⟩ 5 4 1] :=
  C9_deterministic (cls "2024-01-15 09:30:00,123: ATM CE OI:5 PE OI:4") _ _
    (by decide) (by decide)

/-- C1 evaluation at the spec's end-to-end example 2 line: the pipeline
produces NO rows.  The line parses (timestamp 2024-01-15T09:30:00.456,
message `ATM strikes: BANKNIFTY24JAN45000CE`), but the strike regex
`BANKNIFTY\d+[NF]\d+(\d+)(CE|PE)` requires the single letter `N` or `F`
immediately after the first digit run, and `JAN` begins with `J`, so the
Strike Extractor returns absent and no StrikeRecord is appended. -/
theorem C1_strike_example_no_rows :
    process_log_data (cls "2024-01-15 09:30:00,456: ATM strikes: BANKNIFTY24JAN45000CE") = []
      ∧ parse_log_line (cls "2024-01-15 09:30:00,456: ATM strikes: BANKNIFTY24JAN45000CE")
          = some (⟨2024, 1, 15, 9, 30, 0, 456000⟩, cls "ATM strikes: BANKNIFTY24JAN45000CE")
      ∧ extract_strike_data (cls "ATM strikes: BANKNIFTY24JAN45000CE") = none :=
  ⟨by decide, by decide, by decide⟩

/-- C3: end-to-end example 1: the line
`2024-01-15 09:30:00,123: ATM CE OI:1500000 PE OI:1200000` produces
exactly one row, an OIRecord with timestamp 2024-01-15T09:30:00.123,
`ce_oi = 1500000`, `pe_oi = 1200000`, `oi_difference = 300000`. -/
theorem C3_oi_example_single_row :
    process_log_data (cls "2024-01-15 09:30:00,123: ATM CE OI:1500000 PE OI:1200000")
      = [Row.oi ⟨2024, 1, 15, 9, 30, 0, 123000⟩ 1500000 1200000 300000] := by
  decide

example : splitCS (cls "a: b: c") = [cls "a", cls "b", cls "c"] := by decide
example : splitCS (cls "") = [[]] := by decide
example : strptime (cls "2024-01-15 09:30:00,123") = some ⟨2024, 1, 15, 9, 30, 0, 123000⟩ := by
  decide
example : strptime (cls "2024-01-15 09:30:00,1234567") = none := by decide
example : strptime (cls "2024-02-30 09:30:00,123") = none := by decide
example : strptime (cls "2024-1-5 9:3:0,4") = some ⟨2024, 1, 5, 9, 3, 0, 400000⟩ := by decide
example : extract_oi_data (cls "ATM CE OI:1500000 PE OI:1200000") = some (1500000, 1200000) := by
  decide
example : extract_oi_data (cls "ATM CE OI:1500000") = none := by decide
example : extract_strike_data (cls "ATM strikes: BANKNIFTY24JAN45000CE") = none := by decide
example : extract_strike_data (cls "ATM strikes: BANKNIFTY24N1245000CE") = some (cls "0") := by
  decide
example :
    process_log_data (cls "2024-01-15 09:30:00,123: ATM CE OI:1500000 PE OI:1200000")
      = [Row.oi ⟨2024, 1, 15, 9, 30, 0, 123000⟩ 1500000 1200000 300000] := by decide
